import Mathlib

/-!
Verification development for the weekly-report generator
(`generate_weekly_report_from_template.py` and the normalizer functions of
`app.py`).  Python strings are embedded as `List Char`; the Word document is
embedded as a list of paragraphs, each a list of text runs with an optional
bold flag, an optional style name and an optional left indent (inches).
Every definition is translated directly from the Python source; the doc
comment of each definition names the function it embeds.
-/

/-- The characters matched by Python's `str.strip()` / regex `\s` for the
code points that can occur here (ASCII whitespace, the Unicode separator
controls and the common Unicode space characters). -/
def pySpace (c : Char) : Bool :=
  c == ' ' || c == '\t' || c == '\n' || c == '\r' || c == '\x0b' || c == '\x0c' ||
  c == '\x1c' || c == '\x1d' || c == '\x1e' || c == '\x1f' || c == '\x85' ||
  c == '\xa0' || c.val == 0x1680 || (0x2000 ≤ c.val && c.val ≤ 0x200a) ||
  c.val == 0x2028 || c.val == 0x2029 || c.val == 0x202f || c.val == 0x205f ||
  c.val == 0x3000

/-- Embedded Python string. -/
abbrev Str := List Char

/-- Python `s.lstrip()`. -/
def pyLstrip (l : Str) : Str := l.dropWhile pySpace

/-- Python `s.rstrip()`. -/
def pyRstrip (l : Str) : Str := (l.reverse.dropWhile pySpace).reverse

/-- Python `s.strip()`. -/
def pyStrip (l : Str) : Str := pyLstrip (pyRstrip l)

/-- Python `s.strip("\n")` (strips only newline characters at both ends),
as used by `insert_content_parsed` and `insert_label_value_block`. -/
def stripNl (l : Str) : Str :=
  ((l.dropWhile (· == '\n')).reverse.dropWhile (· == '\n')).reverse

/-- Python `s.replace("\r\n", "\n")`: left-to-right, non-overlapping
replacement of CRLF by LF. -/
def crlf2lf : List Char → List Char
  | [] => []
  | [c] => [c]
  | c :: d :: rest =>
    if c = '\r' ∧ d = '\n' then '\n' :: crlf2lf rest
    else c :: crlf2lf (d :: rest)

/-- `true` iff the string has no occurrence of the substring CRLF. -/
def noCRLF : List Char → Bool
  | [] => true
  | c :: rest => (!(c == '\r' && rest.head? == some '\n')) && noCRLF rest

/-- `true` iff the string has no occurrence of the substring CR CR LF. -/
def noRRN : List Char → Bool
  | [] => true
  | c :: rest =>
    (!(c == '\r' && rest.head? == some '\r' && rest.tail.head? == some '\n')) &&
      noRRN rest

/-- The sentence-ending punctuation class `[.!?:]` of `_INLINE_BULLET_RE`
in `app.py`. -/
def isPunct (c : Char) : Bool := c == '.' || c == '!' || c == '?' || c == ':'

/-- One attempted match of the regex `([.!?:])\s+-\s+` at a position whose
first character is `c` and whose remaining input is `rest`.  Returns the
input remaining after the match, or `none` when the pattern does not match
here.  (The greedy `\s+` runs are forced: the interior of a whitespace run
never contains `-`.) -/
def bulletStep (c : Char) (rest : List Char) : Option (List Char) :=
  if isPunct c then
    if (rest.takeWhile pySpace).isEmpty then none
    else
      if (rest.dropWhile pySpace).head? = some '-' then
        if ((rest.dropWhile pySpace).tail.takeWhile pySpace).isEmpty then none
        else some ((rest.dropWhile pySpace).tail.dropWhile pySpace)
      else none
  else none

/-- The substitution pass of `_INLINE_BULLET_RE.sub(r"\1\n- ", s)` in
`app.py`: scan left to right, replacing every non-overlapping match of
`([.!?:])\s+-\s+` by the punctuation mark, a newline and `"- "`;
`fuel` bounds the number of scan steps. -/
def bulletSubF : Nat → List Char → List Char
  | _, [] => []
  | 0, l => l
  | fuel + 1, c :: rest =>
    match bulletStep c rest with
    | some r3 => c :: '\n' :: '-' :: ' ' :: bulletSubF fuel r3
    | none => c :: bulletSubF fuel rest

/-- The substitution scan, run with enough fuel (each step consumes at
least one character, so `l.length` steps always finish the scan). -/
def bulletSub (l : List Char) : List Char := bulletSubF l.length l

/-- `_normalize_inline_bullets` from `app.py`: returns falsy input as is,
otherwise normalizes CRLF to LF and applies the inline-bullet regex
substitution. -/
def normalize_inline_bullets (s : Str) : Str :=
  if s = [] then s else bulletSub (crlf2lf s)

/-- A text run of a paragraph: python-docx `Run` with its text and bold
flag (`none` = inherited). -/
structure DocRun where
  text : Str
  bold : Option Bool
deriving DecidableEq

/-- A paragraph of the document body: python-docx `Paragraph` with its
runs, optional style name and optional left indent in inches. -/
structure Para where
  runs : List DocRun
  style : Option String
  indent : Option Rat
deriving DecidableEq

/-- python-docx `Paragraph.text`: concatenation of the run texts. -/
def Para.text (p : Para) : Str := (p.runs.map DocRun.text).flatten

/-- `insert_paragraph_after` (with `_set_left_indent`): a new paragraph
holding one run with the given text and inherited boldness. -/
def mkTextPara (t : Str) (style : Option String) (ind : Option Rat) : Para :=
  ⟨[⟨t, none⟩], style, ind⟩

/-- `insert_paragraph_after_runs` (with `_set_left_indent`): a new
paragraph with one run per `(text, bold)` pair, skipping empty texts
(`if text:` in the source). -/
def mkRunsPara (rs : List (Str × Bool)) (style : Option String) (ind : Option Rat) : Para :=
  ⟨(rs.filter (fun r => !r.1.isEmpty)).map (fun r => ⟨r.1, some r.2⟩), style, ind⟩

/-- `insert_label_value`: one line made of a bold label run and a plain
value run. -/
def labelValuePara (label value : Str) (style : Option String) (ind : Option Rat) : Para :=
  mkRunsPara [(label, true), (value, false)] style ind

/-- The line-break characters recognized by Python `str.splitlines`. -/
def isLineBreak (c : Char) : Bool :=
  c == '\n' || c == '\r' || c == '\x0b' || c == '\x0c' || c == '\x1c' ||
  c == '\x1d' || c == '\x1e' || c == '\x85' || c == '\u2028' || c == '\u2029'

/-- Worker for `splitlines`: `acc` holds the reversed current line. -/
def splitlinesGo : List Char → List Char → List (List Char)
  | acc, [] => if acc.isEmpty then [] else [acc.reverse]
  | acc, [c] =>
    if isLineBreak c then [acc.reverse] else [(c :: acc).reverse]
  | acc, c :: d :: rest =>
    if c = '\r' then
      if d = '\n' then acc.reverse :: splitlinesGo [] rest
      else acc.reverse :: splitlinesGo [] (d :: rest)
    else if isLineBreak c then acc.reverse :: splitlinesGo [] (d :: rest)
    else splitlinesGo (c :: acc) (d :: rest)

/-- Python `str.splitlines` (CRLF counts as a single break; no trailing
empty line). -/
def splitlines (l : Str) : List Str := splitlinesGo [] l

/-- The per-line rendering of `insert_content_parsed` (and of the inlined
copy in `main`'s Execution & Output loop): the text of the paragraph the
line produces, or `none` when the right-stripped line is empty and is
skipped. -/
def renderLine (line0 : Str) : Option Str :=
  if (pyRstrip line0).isEmpty then none
  else if (pyLstrip (pyRstrip line0)).head? = some '-' then
    some ("• ".data ++ pyStrip (pyLstrip (pyRstrip line0)).tail)
  else some (pyStrip (pyRstrip line0))

/-- `insert_content_parsed`: the list of paragraphs inserted for a
marked-text value (the source chains each insertion after the previous
one, so the net effect is this list spliced after the anchor). -/
def contentParas (content : Str) (style : Option String) (ind : Option Rat) : List Para :=
  let c := stripNl (crlf2lf content)
  if (pyStrip c).isEmpty then [mkTextPara "N/A".data style ind]
  else (splitlines c).filterMap (fun line => (renderLine line).map (fun t => mkTextPara t style ind))

/-- `insert_label_value_block`: label and value on one line when the value
(after stripping newlines at both ends) is non-blank, contains no newline
and its left-stripped form does not start with a dash; a blank value
renders as the label plus literal text `" N/A"`; otherwise the bold label
alone followed by `insert_content_parsed` of the value. -/
def labelValueBlockParas (label value : Str) (style : Option String) (ind : Option Rat) : List Para :=
  let v := stripNl value
  if (pyStrip v).isEmpty then [labelValuePara label " N/A".data style ind]
  else if v.contains '\n' = false ∧ (pyLstrip v).head? ≠ some '-' then
    [labelValuePara label (if v.isEmpty then [] else ' ' :: v) style ind]
  else
    mkRunsPara [(label, true)] style ind :: contentParas v style ind

/-- `find_paragraph`: the index of the first paragraph whose stripped text
equals the stripped search text. -/
def find_paragraph : List Para → Str → Option Nat
  | [], _ => none
  | p :: rest, t =>
    if pyStrip p.text = pyStrip t then some 0
    else (find_paragraph rest t).map (· + 1)

/-- Worker for `set_line_value`: rewrite the first paragraph whose stripped
text starts with the given label, replacing its runs by a single run
holding label ++ value (the python-docx `text` setter). -/
def setLineGo (pfx value : Str) : List Para → Option (List Para)
  | [] => none
  | p :: rest =>
    if pfx.isPrefixOf (pyStrip p.text) then
      some ({ p with runs := [⟨pfx ++ value, none⟩] } :: rest)
    else (setLineGo pfx value rest).map (p :: ·)

/-- `set_line_value`: raises `ValueError` (modelled as `.error`) when no
line starts with the given label. -/
def set_line_value (doc : List Para) (pfx value : Str) : Except String (List Para) :=
  match setLineGo pfx value doc with
  | some d => .ok d
  | none => .error "Could not find line starting with the given label"

/-- `clear_between`: locate the start heading (first stripped-text match),
delete every subsequent paragraph until one whose stripped text is among
the stop headings (or to the end of the document), then re-locate the
heading.  Returns the new document and the heading's index. -/
def clear_between (doc : List Para) (startHeading : Str) (stops : List Str) :
    Except String (List Para × Nat) :=
  match find_paragraph doc startHeading with
  | none => .error "Start heading not found"
  | some i =>
    let kept := (doc.drop (i + 1)).dropWhile (fun p => !(stops.contains (pyStrip p.text)))
    let newDoc := doc.take (i + 1) ++ kept
    match find_paragraph newDoc startHeading with
    | none => .error "Start heading disappeared"
    | some j => .ok (newDoc, j)

/-- Net effect of a chain of insert-after calls starting at paragraph
index `i`: the new paragraphs appear, in insertion order, right after
that paragraph. -/
def spliceAfter (doc : List Para) (i : Nat) (newParas : List Para) : List Para :=
  doc.take (i + 1) ++ newParas ++ doc.drop (i + 1)

/-- Decimal digits of a `Nat` as an embedded Python string
(`str(idx)` in f-strings). -/
def natStr (n : Nat) : Str := (toString n).data

/-- The 0.25 inch left indent used by the AI, SOP and Friction sections. -/
def indent25 : Rat := 1 / 4

/-- `main`: the two paragraphs written under the Weekly Objective heading
(the objective line, defaulting to `"N/A"`, and the spacer). -/
def objectiveParas (weekly_objective : Str) : List Para :=
  let wo := if (pyStrip weekly_objective).isEmpty then "N/A".data else pyStrip weekly_objective
  [mkTextPara wo (some "List Paragraph") none, mkTextPara [] (some "List Paragraph") none]

/-- The two shapes of an `execution_output` item's `bullets` field: a
string (split into stripped non-empty lines) or already a list. -/
inductive ExecBullets where
  | bstr (s : Str)
  | blist (l : List Str)
deriving DecidableEq

/-- A dict-shaped `execution_output` item as read by `main` via
`item.get` with defaults (`order` is `none` when the key is absent). -/
structure ExecDict where
  summary : Str
  content : Str
  description : Str
  bullets : ExecBullets
  order : Option Str
deriving DecidableEq

/-- An `execution_output` entry: a dict or a scalar (`str(item) if item
else ""` is embedded as the resulting string). -/
inductive ExecItem where
  | edict (d : ExecDict)
  | escalar (s : Str)
deriving DecidableEq

/-- `main`, lines 255-272: the legacy description/bullets/order
reconstruction of an execution item's content. -/
def execLegacyContent (d : ExecDict) : Str :=
  let bullets :=
    match d.bullets with
    | .bstr s => ((splitlines s).map pyStrip).filter (fun b : Str => !b.isEmpty)
    | .blist l => l
  let ord := d.order.getD "bullets_first".data
  let parts :=
    if ord = "description_first".data then
      (if !d.description.isEmpty then [d.description] else []) ++
        bullets.map (fun b => "- ".data ++ b)
    else
      bullets.map (fun b => "- ".data ++ b) ++
        (if !d.description.isEmpty then [d.description] else [])
  List.intercalate "\n".data parts

/-- `main`, lines 248-272: the summary and effective content of an
execution item (legacy reconstruction applies when the content is
empty). -/
def execFields : ExecItem → Str × Str
  | .escalar s => ([], s)
  | .edict d => (d.summary, if d.content.isEmpty then execLegacyContent d else d.content)

/-- `main`, line 273 (`if summary or content:`): whether an execution
item produces any paragraphs at all. -/
def execRendered (e : ExecItem) : Bool :=
  !(execFields e).1.isEmpty || !(execFields e).2.isEmpty

/-- One line of the Execution & Output content loop (`main`,
lines 281-294; same per-line logic as `insert_content_parsed`). -/
def execLinePara (line : Str) : Option Para :=
  (renderLine line).map (fun t => mkTextPara t (some "List Paragraph") none)

/-- `main`, lines 273-294: the paragraphs inserted for one rendered
execution item (bold summary when non-empty, `"N/A"` when the content
strips to nothing, then one paragraph per non-empty content line). -/
def execItemParas (e : ExecItem) : List Para :=
  (if !(execFields e).1.isEmpty then
      [mkRunsPara [((execFields e).1, true)] (some "List Paragraph") none]
    else []) ++
  (let c := stripNl (crlf2lf (execFields e).2)
   (if (pyStrip c).isEmpty then [mkTextPara "N/A".data (some "List Paragraph") none]
    else []) ++
   (splitlines c).filterMap execLinePara)

/-- `main`, lines 244-299: every paragraph inserted under the
"Execution & Output" heading, including the inter-item spacers and the
trailing spacer before the next heading. -/
def execSectionParas (items : List ExecItem) : List Para :=
  ((items.enum.map (fun pr =>
      if execRendered pr.2 then
        execItemParas pr.2 ++
          (if pr.1 < items.length - 1 then [mkTextPara [] (some "List Paragraph") none]
           else [])
      else [])).flatten) ++
    [mkTextPara [] (some "List Paragraph") none]

/-- An `ai_acceleration_tasks` entry as read by `main` via `t.get` with
empty-string defaults. -/
structure AiTask where
  task : Str
  tool_agent : Str
  time_saved : Str
  insight_failure : Str
deriving DecidableEq

/-- `main`, line 313: style for the AI task at 0-based index `idx`. -/
def aiStyle (idx : Nat) : String := if idx = 0 then "First Paragraph" else "Body Text"

/-- `main`, lines 311-348: the paragraphs inserted for one AI task. -/
def aiTaskParas (idx total : Nat) (t : AiTask) : List Para :=
  let st : Option String := some (aiStyle idx)
  let ind : Option Rat := some indent25
  [labelValuePara ("Task ".data ++ natStr (idx + 1) ++ ": ".data) t.task st ind,
   labelValuePara "Tool / Agent: ".data t.tool_agent st ind,
   labelValuePara "Time Saved (Est.): ".data t.time_saved st ind,
   mkRunsPara [("Insight / Limitation:".data, true)] st ind] ++
  contentParas t.insight_failure st ind ++
  (if idx < total - 1 then [mkTextPara [] st none] else [])

/-- `main`, lines 301-351: every paragraph inserted under the
"AI Acceleration" heading, including the trailing spacer. -/
def aiSectionParas (tasks : List AiTask) : List Para :=
  ((tasks.enum.map (fun pr => aiTaskParas pr.1 tasks.length pr.2)).flatten) ++
    [mkTextPara [] (some "Body Text") none]

/-- A member of the YAML `sop_process_solidification.items` list: a dict
(with optional `item`/`impact` keys) or a non-dict value. -/
inductive SopYamlItem where
  | sdict (item impact : Option Str)
  | other
deriving DecidableEq

/-- The YAML `sop_process_solidification` mapping: the `items` key (absent
embeds as `[]`) and the legacy `item`/`impact` keys (`none` = absent). -/
structure SopData where
  items : List SopYamlItem
  item : Option Str
  impact : Option Str
deriving DecidableEq

/-- `main`, lines 354-364: the generator's own sop_items extraction with
the legacy single item/impact fallback and the default entry. -/
def genSopItems : Option SopData → List SopYamlItem
  | none => [.sdict (some "None".data) (some "N/A".data)]
  | some r =>
    if !r.items.isEmpty then r.items
    else if r.item.isSome || r.impact.isSome then
      [.sdict (some (r.item.getD "None".data)) (some (r.impact.getD "N/A".data))]
    else [.sdict (some "None".data) (some "N/A".data)]

/-- `main`, lines 380-381: the item/impact strings of one sop entry
(`s.get("item", "None")` / `s.get("impact", "N/A")`, non-dicts give the
defaults). -/
def sopRender : SopYamlItem → Str × Str
  | .sdict item impact => (item.getD "None".data, impact.getD "N/A".data)
  | .other => ("None".data, "N/A".data)

/-- `main`, lines 382-395: the paragraphs inserted for one sop entry: an
"Item: " label/value line and an "Impact:" label/value block. -/
def sopItemParas (item impact : Str) : List Para :=
  labelValuePara "Item: ".data item (some "Normal") (some indent25) ::
    labelValueBlockParas "Impact:".data impact (some "Normal") (some indent25)

/-- `main`, lines 377-400: every paragraph inserted under the
"SOP & Process Solidification" heading, with spacers. -/
def sopSectionParas (items : List SopYamlItem) : List Para :=
  ((items.enum.map (fun pr =>
      sopItemParas (sopRender pr.2).1 (sopRender pr.2).2 ++
        (if pr.1 < items.length - 1 then [mkTextPara [] (some "Normal") none] else []))).flatten) ++
    [mkTextPara [] (some "Normal") none]

/-- A `friction_blockers_ask` entry: a dict with the three fields read via
`item.get` with empty defaults, or a scalar (embedded as its final
string, empty for falsy values). -/
inductive FrictionItem where
  | fdict (friction action ask : Str)
  | fscalar (s : Str)
deriving DecidableEq

/-- `main`, lines 416-423: the friction/action/ask strings of an entry. -/
def frictionFields : FrictionItem → Str × Str × Str
  | .fdict f a k => (f, a, k)
  | .fscalar s => (s, [], [])

/-- The f-string label `f"Friction {idx}: "` of `main`, line 429. -/
def frictionLabel (idx : Nat) : Str := "Friction ".data ++ natStr idx ++ ": ".data

/-- `main`, lines 414-449: the paragraphs inserted for one friction entry
(1-based `idx`); entries with all three fields empty produce nothing. -/
def frictionItemParas (idx total : Nat) (it : FrictionItem) : List Para :=
  let f := (frictionFields it).1
  let a := (frictionFields it).2.1
  let k := (frictionFields it).2.2
  if !f.isEmpty || !a.isEmpty || !k.isEmpty then
    let frValue := if (pyStrip f).isEmpty then "N/A".data else pyStrip f
    labelValuePara (frictionLabel idx) frValue (some "Normal") (some indent25) ::
      (labelValueBlockParas "Action/Mitigation:".data a (some "Normal") (some indent25) ++
       labelValueBlockParas "Ask/Attention needed:".data k (some "Normal") (some indent25) ++
       (if idx < total then [mkTextPara [] (some "Normal") none] else []))
  else []

/-- `main`, lines 412-450: every paragraph inserted under the
"Friction, Blockers & Ask" heading, including the unconditional trailing
spacer. -/
def frictionSectionParas (items : List FrictionItem) : List Para :=
  ((items.enum.map (fun pr => frictionItemParas (pr.1 + 1) items.length pr.2)).flatten) ++
    [mkTextPara [] (some "Normal") none]

/-- `main`, lines 471-480: the "Focus N: " label/value lines of the
Next Week's Focus section. -/
def focusParas (lines : List Str) : List Para :=
  lines.enum.map (fun pr =>
    labelValuePara ("Focus ".data ++ natStr (pr.1 + 1) ++ ": ".data) pr.2
      (some "Normal") (some indent25))

/-- The YAML record as read by `main` (each field already coerced through
the `data.get(...)` defaults of the source). -/
structure InputData where
  name : Str
  role : Str
  week : Str
  weekly_objective : Str
  execution_output : List ExecItem
  ai_tasks : List AiTask
  sop : Option SopData
  friction : List FrictionItem
  next_week_focus : List Str
deriving DecidableEq

/-- `main`, lines 219-222: the Week header value — the record's `week`
unless blank, in which case the computed current Monday-Friday range
(passed in as `todayRange`, standing for `get_week_range()`). -/
def headerWeek (week todayRange : Str) : Str :=
  if (pyStrip week).isEmpty then todayRange else week

/-- Heading string from `main`. -/
def hdObjective : Str := "Weekly Objective (One Sentence)".data

/-- Heading string from `main`. -/
def hdExec : Str := "Execution & Output".data

/-- Heading string from `main`. -/
def hdLog : Str := "The “2X” Transformation Log".data

/-- Heading string from `main`. -/
def hdAI : Str := "AI Acceleration".data

/-- Heading string from `main`. -/
def hdSop : Str := "SOP & Process Solidification".data

/-- Heading string from `main`. -/
def hdFriction : Str := "Friction, Blockers & Ask".data

/-- Heading string from `main` (trailing-space variant). -/
def hdNextWeekSp : Str := "Next Week’s Focus (Preview Only) ".data

/-- Heading string from `main`. -/
def hdNextWeek : Str := "Next Week’s Focus (Preview Only)".data

/-- `main` of `generate_weekly_report_from_template.py`, after the YAML
load: header substitution, the five region replacements and the final
save.  `.error` models an uncaught `ValueError` (generation aborts, no
output file is written); `.ok` returns the saved document body. -/
def generateReport (template : List Para) (d : InputData) (todayRange : Str) :
    Except String (List Para) := do
  let doc1 ← set_line_value template "Name: ".data d.name
  let doc2 ← set_line_value doc1 "Role: ".data d.role
  let doc3 ← set_line_value doc2 "Week: ".data (headerWeek d.week todayRange)
  let (doc4, i1) ← clear_between doc3 hdObjective [hdExec, hdLog]
  let doc5 := spliceAfter doc4 i1 (objectiveParas d.weekly_objective)
  let (doc6, i2) ← clear_between doc5 hdExec [hdLog]
  let doc7 := spliceAfter doc6 i2 (execSectionParas d.execution_output)
  let (doc8, i3) ← clear_between doc7 hdAI [hdSop, hdFriction]
  let doc9 := spliceAfter doc8 i3 (aiSectionParas d.ai_tasks)
  let doc10 ←
    match find_paragraph doc9 hdSop with
    | none => pure doc9
    | some _ => do
      let (dc, j) ← clear_between doc9 hdSop [hdFriction, hdNextWeekSp, hdNextWeek]
      pure (spliceAfter dc j (sopSectionParas (genSopItems d.sop)))
  let (doc11, i4) ← clear_between doc10 hdFriction [hdNextWeekSp, hdNextWeek]
  let doc12 := spliceAfter doc11 i4 (frictionSectionParas d.friction)
  let doc13 :=
    match find_paragraph doc12 hdNextWeekSp with
    | some i => doc12.take (i + 1) ++ focusParas d.next_week_focus
    | none =>
      match find_paragraph doc12 hdNextWeek with
      | some i => doc12.take (i + 1) ++ focusParas d.next_week_focus
      | none => doc12
  return doc13

/-- `_content_from_legacy_execution` from `app.py` (unlike the inlined
copy in `main`, the description is stripped). -/
def content_from_legacy_execution (description0 : Str) (bullets : ExecBullets)
    (orderOpt : Option Str) : Str :=
  let description := pyStrip description0
  let bl :=
    match bullets with
    | .bstr s => ((splitlines s).map pyStrip).filter (fun b : Str => !b.isEmpty)
    | .blist l => l
  let ord := orderOpt.getD "bullets_first".data
  let parts :=
    if ord = "description_first".data then
      (if !description.isEmpty then [description] else []) ++
        bl.map (fun b => "- ".data ++ b)
    else
      bl.map (fun b => "- ".data ++ b) ++
        (if !description.isEmpty then [description] else [])
  List.intercalate "\n".data parts

/-- A dict-shaped `execution_output` entry as seen by
`_normalize_execution_output` in `app.py` (`content` is `none` when the
key is absent, which selects the legacy reconstruction). -/
structure NormExecDict where
  summary : Str
  content : Option Str
  description : Str
  bullets : ExecBullets
  order : Option Str
deriving DecidableEq

/-- An `execution_output` entry fed to `_normalize_execution_output`. -/
inductive NormExecItem where
  | ndict (d : NormExecDict)
  | nscalar (s : Str)
deriving DecidableEq

/-- `_normalize_execution_output` from `app.py`: empty input yields the
single placeholder entry with empty summary and content. -/
def normalize_execution_output (raw : List NormExecItem) : List (Str × Str) :=
  if raw.isEmpty then [([], [])]
  else
    let out := raw.map (fun item =>
      match item with
      | .ndict d =>
        (d.summary,
         match d.content with
         | some cv => cv
         | none => content_from_legacy_execution d.description d.bullets d.order)
      | .nscalar s => (([] : Str), s))
    if out.isEmpty then [([], [])] else out

/-- `_normalize_sop_items` from `app.py`: falsy input gives the default
entry; a non-empty `items` list maps each member through the item/impact
defaults; otherwise the legacy single item/impact shape applies. -/
def normalize_sop_items (raw : Option SopData) : List (Str × Str) :=
  match raw with
  | none => [("None".data, "N/A".data)]
  | some r =>
    if !r.items.isEmpty then
      let out := r.items.map (fun x =>
        match x with
        | .sdict item impact => (item.getD "None".data, impact.getD "N/A".data)
        | .other => ("None".data, "N/A".data))
      if out.isEmpty then [("None".data, "N/A".data)] else out
    else [(r.item.getD "None".data, r.impact.getD "N/A".data)]

/-- Build a plain template from heading/line texts. -/
def tpl (texts : List String) : List Para := texts.map (fun t => mkTextPara t.data none none)

/-- An all-empty input record (every optional YAML field absent). -/
def inputEmpty : InputData := ⟨[], [], [], [], [], [], none, [], []⟩

/-- A well-formed template containing every anchor except the
"SOP & Process Solidification" heading. -/
def tmplNoSop : List Para := tpl ["Name: x", "Role: x", "Week: x",
  "Weekly Objective (One Sentence)", "Execution & Output",
  "The “2X” Transformation Log", "AI Acceleration",
  "Friction, Blockers & Ask", "Next Week’s Focus (Preview Only)"]

/-- A template missing only the "Weekly Objective (One Sentence)" heading. -/
def tmplNoObj : List Para := tpl ["Name: x", "Role: x", "Week: x",
  "Execution & Output", "The “2X” Transformation Log", "AI Acceleration",
  "SOP & Process Solidification", "Friction, Blockers & Ask",
  "Next Week’s Focus (Preview Only)"]

/-- A template missing only the "Execution & Output" heading. -/
def tmplNoExec : List Para := tpl ["Name: x", "Role: x", "Week: x",
  "Weekly Objective (One Sentence)", "The “2X” Transformation Log",
  "AI Acceleration", "SOP & Process Solidification",
  "Friction, Blockers & Ask", "Next Week’s Focus (Preview Only)"]

/-- A template missing only the "AI Acceleration" heading. -/
def tmplNoAI : List Para := tpl ["Name: x", "Role: x", "Week: x",
  "Weekly Objective (One Sentence)", "Execution & Output",
  "The “2X” Transformation Log", "SOP & Process Solidification",
  "Friction, Blockers & Ask", "Next Week’s Focus (Preview Only)"]

/-- A template missing only the "Friction, Blockers & Ask" heading. -/
def tmplNoFriction : List Para := tpl ["Name: x", "Role: x", "Week: x",
  "Weekly Objective (One Sentence)", "Execution & Output",
  "The “2X” Transformation Log", "AI Acceleration",
  "SOP & Process Solidification", "Next Week’s Focus (Preview Only)"]

/-- A template missing only the "Next Week's Focus (Preview Only)"
heading. -/
def tmplNoNW : List Para := tpl ["Name: x", "Role: x", "Week: x",
  "Weekly Objective (One Sentence)", "Execution & Output",
  "The “2X” Transformation Log", "AI Acceleration",
  "SOP & Process Solidification", "Friction, Blockers & Ask"]

/-- A two-paragraph document whose Name line carries sample text after the
label (so its trimmed text is not exactly the anchor string). -/
def docNameSample : List Para := tpl ["Header", "Name: John"]

theorem dropWhile_head_false {α : Type} {p : α → Bool} {l : List α} {a : α}
    (h : (l.dropWhile p).head? = some a) : p a = false := by
  induction l with
  | nil => simp [List.dropWhile] at h
  | cons x xs ih =>
    rw [List.dropWhile_cons] at h
    split at h
    · exact ih h
    · rename_i hx
      simp only [List.head?_cons, Option.some.injEq] at h
      subst h
      cases hpx : p x with
      | false => rfl
      | true => exact absurd hpx hx

theorem dropWhile_eq_self_of_head {α : Type} {p : α → Bool} {l : List α}
    (h : ∀ a, l.head? = some a → p a = false) : l.dropWhile p = l := by
  cases l with
  | nil => rfl
  | cons x xs =>
    have hx := h x rfl
    rw [List.dropWhile_cons]
    simp [hx]

theorem takeWhile_eq_nil_of_head {α : Type} {p : α → Bool} {l : List α}
    (h : ∀ a, l.head? = some a → p a = false) : l.takeWhile p = [] := by
  cases l with
  | nil => rfl
  | cons x xs =>
    have hx := h x rfl
    rw [List.takeWhile_cons]
    simp [hx]

theorem takeWhile_nil_head {α : Type} {p : α → Bool} {l : List α}
    (h : l.takeWhile p = []) : ∀ a, l.head? = some a → p a = false := by
  intro a ha
  cases l with
  | nil => simp at ha
  | cons x xs =>
    simp only [List.head?_cons, Option.some.injEq] at ha
    rw [List.takeWhile_cons] at h
    rw [← ha]
    cases hpx : p x with
    | false => rfl
    | true => rw [hpx] at h; simp at h

theorem takeWhile_append_all {α : Type} {p : α → Bool} {w r : List α}
    (h : ∀ x ∈ w, p x = true) : (w ++ r).takeWhile p = w ++ r.takeWhile p := by
  induction w with
  | nil => simp
  | cons x xs ih =>
    have hx := h x (by simp)
    rw [List.cons_append, List.takeWhile_cons_of_pos hx, ih (fun y hy => h y (by simp [hy]))]
    rfl

theorem dropWhile_append_all {α : Type} {p : α → Bool} {w r : List α}
    (h : ∀ x ∈ w, p x = true) : (w ++ r).dropWhile p = r.dropWhile p := by
  induction w with
  | nil => simp
  | cons x xs ih =>
    have hx := h x (by simp)
    rw [List.cons_append, List.dropWhile_cons_of_pos hx, ih (fun y hy => h y (by simp [hy]))]

theorem punct_not_space {c : Char} (h : isPunct c = true) : pySpace c = false := by
  simp only [isPunct, Bool.or_eq_true, beq_iff_eq] at h
  rcases h with ((rfl | rfl) | rfl) | rfl <;> decide


theorem bulletStep_some_elim {c : Char} {rest r3 : List Char}
    (h : bulletStep c rest = some r3) :
    isPunct c = true ∧ ¬(rest.takeWhile pySpace).isEmpty = true ∧
      (rest.dropWhile pySpace).head? = some '-' ∧
      ¬((rest.dropWhile pySpace).tail.takeWhile pySpace).isEmpty = true ∧
      r3 = (rest.dropWhile pySpace).tail.dropWhile pySpace := by
  unfold bulletStep at h
  split at h
  · rename_i hp
    split at h
    · simp at h
    · rename_i hw1
      split at h
      · rename_i hdash
        split at h
        · simp at h
        · rename_i hw2
          injection h with h3
          exact ⟨hp, hw1, hdash, hw2, h3.symm⟩
      · simp at h
  · simp at h

theorem bulletStep_length {c : Char} {rest r3 : List Char}
    (h : bulletStep c rest = some r3) : r3.length ≤ rest.length := by
  obtain ⟨_, _, _, _, hr3⟩ := bulletStep_some_elim h
  rw [hr3]
  have h1 : ((rest.dropWhile pySpace).tail.dropWhile pySpace).length ≤
      (rest.dropWhile pySpace).tail.length :=
    (List.dropWhile_suffix pySpace).length_le
  have h2 : (rest.dropWhile pySpace).tail.length = (rest.dropWhile pySpace).length - 1 :=
    List.length_tail _
  have h3 : (rest.dropWhile pySpace).length ≤ rest.length :=
    (List.dropWhile_suffix pySpace).length_le
  omega

theorem bulletSubF_nil (n : Nat) : bulletSubF n [] = [] := by cases n <;> rfl

theorem bulletSubF_succ_cons (n : Nat) (c : Char) (rest : List Char) :
    bulletSubF (n + 1) (c :: rest) =
      match bulletStep c rest with
      | some r3 => c :: '\n' :: '-' :: ' ' :: bulletSubF n r3
      | none => c :: bulletSubF n rest := rfl

theorem bulletSubF_congr (n : Nat) : ∀ (m : Nat) (l : List Char),
    l.length ≤ n → l.length ≤ m → bulletSubF n l = bulletSubF m l := by
  induction n with
  | zero =>
    intro m l hn _
    cases l with
    | nil => rw [bulletSubF_nil, bulletSubF_nil]
    | cons c rest => simp at hn
  | succ n ih =>
    intro m l hn hm
    cases l with
    | nil => rw [bulletSubF_nil, bulletSubF_nil]
    | cons c rest =>
      cases m with
      | zero => simp at hm
      | succ m' =>
        rw [bulletSubF_succ_cons, bulletSubF_succ_cons]
        cases hs : bulletStep c rest with
        | some r3 =>
          have hl := bulletStep_length hs
          simp only [List.length_cons] at hn hm
          dsimp only
          rw [ih m' r3 (by omega) (by omega)]
        | none =>
          simp only [List.length_cons] at hn hm
          dsimp only
          rw [ih m' rest (by omega) (by omega)]

theorem bulletSub_nil : bulletSub ([] : List Char) = [] := rfl

theorem bulletSub_cons_some {c : Char} {rest r3 : List Char}
    (h : bulletStep c rest = some r3) :
    bulletSub (c :: rest) = c :: '\n' :: '-' :: ' ' :: bulletSub r3 := by
  show bulletSubF (c :: rest).length (c :: rest) = _
  simp only [List.length_cons]
  rw [bulletSubF_succ_cons, h]
  show c :: '\n' :: '-' :: ' ' :: bulletSubF rest.length r3 = _
  rw [bulletSubF_congr rest.length r3.length r3 (bulletStep_length h) (le_refl _)]
  rfl

theorem bulletSub_cons_none {c : Char} {rest : List Char}
    (h : bulletStep c rest = none) :
    bulletSub (c :: rest) = c :: bulletSub rest := by
  show bulletSubF (c :: rest).length (c :: rest) = _
  simp only [List.length_cons]
  rw [bulletSubF_succ_cons, h]
  rfl

theorem bulletSub_head? (l : List Char) : (bulletSub l).head? = l.head? := by
  cases l with
  | nil => rfl
  | cons c rest =>
    cases hs : bulletStep c rest with
    | some r3 => rw [bulletSub_cons_some hs]; rfl
    | none => rw [bulletSub_cons_none hs]; rfl

theorem bulletSub_induction (motive : List Char → Prop)
    (h1 : motive [])
    (h2 : ∀ c rest r3, bulletStep c rest = some r3 → motive r3 → motive (c :: rest))
    (h3 : ∀ c rest, bulletStep c rest = none → motive rest → motive (c :: rest)) :
    ∀ l, motive l := by
  have key : ∀ n (l : List Char), l.length ≤ n → motive l := by
    intro n
    induction n with
    | zero =>
      intro l hl
      cases l with
      | nil => exact h1
      | cons c rest => simp at hl
    | succ n ih =>
      intro l hl
      cases l with
      | nil => exact h1
      | cons c rest =>
        simp only [List.length_cons] at hl
        cases hs : bulletStep c rest with
        | some r3 =>
          have := bulletStep_length hs
          exact h2 c rest r3 hs (ih r3 (by omega))
        | none => exact h3 c rest hs (ih rest (by omega))
  exact fun l => key l.length l (le_refl _)

theorem bulletSub_append_no_punct {w r : List Char}
    (h : ∀ x ∈ w, isPunct x = false) :
    bulletSub (w ++ r) = w ++ bulletSub r := by
  induction w with
  | nil => simp
  | cons x xs ih =>
    have hx : isPunct x = false := h x (by simp)
    have hstep : bulletStep x (xs ++ r) = none := by simp [bulletStep, hx]
    rw [List.cons_append, bulletSub_cons_none hstep,
      ih (fun y hy => h y (by simp [hy]))]
    rfl

theorem bulletStep_after_replace {c : Char} {t : List Char}
    (hc : isPunct c = true)
    (ht : ∀ a, t.head? = some a → pySpace a = false) :
    bulletStep c ('\n' :: '-' :: ' ' :: t) = some t := by
  have h1 : List.takeWhile pySpace t = [] := takeWhile_eq_nil_of_head ht
  have h2 : List.dropWhile pySpace t = t := dropWhile_eq_self_of_head ht
  simp [bulletStep, hc, h1, h2, List.takeWhile_cons, List.dropWhile_cons,
    show pySpace '\n' = true from by decide, show pySpace '-' = false from by decide,
    show pySpace ' ' = true from by decide]

theorem bulletStep_none_preserved {c : Char} {rest : List Char}
    (h : bulletStep c rest = none) :
    bulletStep c (bulletSub rest) = none := by
  cases hp : isPunct c with
  | false => simp [bulletStep, hp]
  | true =>
    have hWall : ∀ x ∈ rest.takeWhile pySpace, pySpace x = true :=
      fun x hx => List.mem_takeWhile_imp hx
    have hWnp : ∀ x ∈ rest.takeWhile pySpace, isPunct x = false := by
      intro x hx
      cases hpx : isPunct x with
      | false => rfl
      | true => exact absurd (hWall x hx) (by rw [punct_not_space hpx]; simp)
    have hsub : bulletSub rest =
        rest.takeWhile pySpace ++ bulletSub (rest.dropWhile pySpace) := by
      conv_lhs => rw [← List.takeWhile_append_dropWhile pySpace rest]
      exact bulletSub_append_no_punct hWnp
    have hbRhead : ∀ a, (bulletSub (rest.dropWhile pySpace)).head? = some a →
        pySpace a = false := by
      intro a ha
      rw [bulletSub_head?] at ha
      exact dropWhile_head_false ha
    have htw : (bulletSub rest).takeWhile pySpace = rest.takeWhile pySpace := by
      rw [hsub, takeWhile_append_all hWall, takeWhile_eq_nil_of_head hbRhead,
        List.append_nil]
    have hdw : (bulletSub rest).dropWhile pySpace =
        bulletSub (rest.dropWhile pySpace) := by
      rw [hsub, dropWhile_append_all hWall, dropWhile_eq_self_of_head hbRhead]
    have hbhead : ((bulletSub rest).dropWhile pySpace).head? =
        (rest.dropWhile pySpace).head? := by
      rw [hdw, bulletSub_head?]
    unfold bulletStep at h ⊢
    rw [if_pos hp] at h ⊢
    rw [htw, hbhead, hdw]
    by_cases hW : (rest.takeWhile pySpace).isEmpty = true
    · rw [if_pos hW]
    · rw [if_neg hW] at h ⊢
      by_cases hdash : (rest.dropWhile pySpace).head? = some '-'
      · rw [if_pos hdash] at h ⊢
        cases hR : rest.dropWhile pySpace with
        | nil => rw [hR] at hdash; simp at hdash
        | cons d r2 =>
          rw [hR] at hdash
          simp only [List.head?_cons, Option.some.injEq] at hdash
          subst hdash
          by_cases hw2 : (r2.takeWhile pySpace).isEmpty = true
          · have hstep2 : bulletStep '-' r2 = none := by simp [bulletStep, isPunct]
            rw [bulletSub_cons_none hstep2]
            have hr2head : ∀ a, r2.head? = some a → pySpace a = false :=
              takeWhile_nil_head (by
                rw [List.isEmpty_iff] at hw2
                exact hw2)
            have hr2' : (bulletSub r2).takeWhile pySpace = [] :=
              takeWhile_eq_nil_of_head (fun a ha => hr2head a (by
                rw [← bulletSub_head?]; exact ha))
            simp only [List.tail_cons, hr2', List.isEmpty_nil, if_true]
          · rw [hR] at h
            simp only [List.tail_cons] at h
            rw [if_neg hw2] at h
            simp at h
      · rw [if_neg hdash]

theorem bulletSub_idem (l : List Char) : bulletSub (bulletSub l) = bulletSub l := by
  induction l using bulletSub_induction with
  | h1 => rw [bulletSub_nil, bulletSub_nil]
  | h2 c rest r3 h ih =>
    obtain ⟨hp, _, _, _, hr3⟩ := bulletStep_some_elim h
    have hhead : ∀ a, (bulletSub r3).head? = some a → pySpace a = false := by
      intro a ha
      rw [bulletSub_head?, hr3] at ha
      exact dropWhile_head_false ha
    have hstep := bulletStep_after_replace hp hhead
    rw [bulletSub_cons_some h, bulletSub_cons_some hstep, ih]
  | h3 c rest h ih =>
    rw [bulletSub_cons_none h, bulletSub_cons_none (bulletStep_none_preserved h), ih]

theorem crlf2lf_nil : crlf2lf [] = [] := rfl

theorem crlf2lf_cons (c : Char) (rest : List Char) :
    crlf2lf (c :: rest) =
      if c = '\r' ∧ rest.head? = some '\n' then '\n' :: crlf2lf rest.tail
      else c :: crlf2lf rest := by
  cases rest with
  | nil => simp [crlf2lf]
  | cons d rest' =>
    by_cases hm : c = '\r' ∧ d = '\n'
    · simp only [crlf2lf, List.head?_cons, Option.some.injEq, List.tail_cons,
        if_pos hm]
    · simp only [crlf2lf, List.head?_cons, Option.some.injEq, List.tail_cons,
        if_neg hm]

theorem crlf2lf_induction (motive : List Char → Prop)
    (h1 : motive [])
    (h2 : ∀ c rest, (c = '\r' ∧ rest.head? = some '\n') → motive rest.tail →
      motive (c :: rest))
    (h3 : ∀ c rest, ¬(c = '\r' ∧ rest.head? = some '\n') → motive rest →
      motive (c :: rest)) :
    ∀ l, motive l := by
  have key : ∀ n (l : List Char), l.length ≤ n → motive l := by
    intro n
    induction n with
    | zero =>
      intro l hl
      cases l with
      | nil => exact h1
      | cons c rest => simp at hl
    | succ n ih =>
      intro l hl
      cases l with
      | nil => exact h1
      | cons c rest =>
        simp only [List.length_cons] at hl
        by_cases hm : c = '\r' ∧ rest.head? = some '\n'
        · refine h2 c rest hm (ih rest.tail ?_)
          rw [List.length_tail]
          omega
        · exact h3 c rest hm (ih rest (by omega))
  exact fun l => key l.length l (le_refl _)

theorem noCRLF_cons (c : Char) (rest : List Char) :
    noCRLF (c :: rest) = ((!(c == '\r' && rest.head? == some '\n')) && noCRLF rest) := rfl

theorem noRRN_cons (c : Char) (rest : List Char) :
    noRRN (c :: rest) =
      ((!(c == '\r' && rest.head? == some '\r' && rest.tail.head? == some '\n')) &&
        noRRN rest) := rfl

theorem noCRLF_tail {l : List Char} (h : noCRLF l = true) : noCRLF l.tail = true := by
  cases l with
  | nil => exact h
  | cons c rest =>
    rw [noCRLF_cons, Bool.and_eq_true] at h
    exact h.2

theorem noRRN_tail {l : List Char} (h : noRRN l = true) : noRRN l.tail = true := by
  cases l with
  | nil => exact h
  | cons c rest =>
    rw [noRRN_cons, Bool.and_eq_true] at h
    exact h.2

theorem noCRLF_dropWhile {p : Char → Bool} {l : List Char} (h : noCRLF l = true) :
    noCRLF (l.dropWhile p) = true := by
  induction l with
  | nil => exact h
  | cons c rest ih =>
    rw [List.dropWhile_cons]
    split
    · exact ih (noCRLF_tail h)
    · exact h

theorem noCRLF_crlf2lf_id (l : List Char) : noCRLF l = true → crlf2lf l = l := by
  induction l using crlf2lf_induction with
  | h1 => intro _; exact crlf2lf_nil
  | h2 c rest hm ih =>
    intro h
    exfalso
    obtain ⟨rfl, hh⟩ := hm
    rw [noCRLF_cons] at h
    simp [hh] at h
  | h3 c rest hm ih =>
    intro h
    rw [crlf2lf_cons, if_neg hm, ih (noCRLF_tail h)]

theorem crlf2lf_head_newline {rest : List Char}
    (h : (crlf2lf rest).head? = some '\n') :
    rest.head? = some '\n' ∨ (rest.head? = some '\r' ∧ rest.tail.head? = some '\n') := by
  cases rest with
  | nil => rw [crlf2lf_nil] at h; simp at h
  | cons x xs =>
    rw [crlf2lf_cons] at h
    split at h
    · rename_i hm
      right
      exact ⟨by rw [hm.1]; rfl, hm.2⟩
    · left
      simp only [List.head?_cons, Option.some.injEq] at h
      simp [h]

theorem noRRN_noCRLF_crlf2lf (l : List Char) :
    noRRN l = true → noCRLF (crlf2lf l) = true := by
  induction l using crlf2lf_induction with
  | h1 => intro _; rw [crlf2lf_nil]; rfl
  | h2 c rest hm ih =>
    intro h
    rw [crlf2lf_cons, if_pos hm, noCRLF_cons]
    rw [ih (noRRN_tail (noRRN_tail h))]
    simp
  | h3 c rest hm ih =>
    intro h
    rw [crlf2lf_cons, if_neg hm, noCRLF_cons]
    rw [ih (noRRN_tail h)]
    simp only [Bool.and_true]
    by_cases hc : c = '\r'
    · subst hc
      cases hcr : (crlf2lf rest).head? with
      | none => simp [hcr]
      | some x =>
        by_cases hx : x = '\n'
        · subst hx
          exfalso
          rcases crlf2lf_head_newline hcr with hl | ⟨hr1, hr2⟩
          · exact hm ⟨rfl, hl⟩
          · rw [noRRN_cons, Bool.and_eq_true] at h
            have h1 := h.1
            rw [hr1, hr2] at h1
            simp at h1
        · simp [hcr, hx]
    · simp [hc]

theorem crlf2lf_ne_nil {l : List Char} (h : l ≠ []) : crlf2lf l ≠ [] := by
  cases l with
  | nil => exact absurd rfl h
  | cons c rest =>
    rw [crlf2lf_cons]
    split <;> simp

theorem bulletSub_ne_nil {l : List Char} (h : l ≠ []) : bulletSub l ≠ [] := by
  intro h0
  have hh := bulletSub_head? l
  rw [h0] at hh
  cases l with
  | nil => exact h rfl
  | cons c rest => simp at hh

theorem noCRLF_bulletSub (l : List Char) :
    noCRLF l = true → noCRLF (bulletSub l) = true := by
  induction l using bulletSub_induction with
  | h1 => intro _; rw [bulletSub_nil]; rfl
  | h2 c rest r3 h ih =>
    intro hl
    obtain ⟨hp, _, _, _, hr3⟩ := bulletStep_some_elim h
    have hcr : (c == '\r') = false := by
      simp only [isPunct, Bool.or_eq_true, beq_iff_eq] at hp
      rcases hp with ((rfl | rfl) | rfl) | rfl <;> decide
    have hr3' : noCRLF r3 = true := by
      rw [hr3]
      exact noCRLF_dropWhile (noCRLF_tail (noCRLF_dropWhile (noCRLF_tail hl)))
    rw [bulletSub_cons_some h]
    rw [noCRLF_cons, noCRLF_cons, noCRLF_cons, noCRLF_cons]
    rw [ih hr3', hcr]
    simp
  | h3 c rest h ih =>
    intro hl
    rw [bulletSub_cons_none h, noCRLF_cons, bulletSub_head?]
    rw [noCRLF_cons] at hl
    rw [Bool.and_eq_true] at hl ⊢
    exact ⟨hl.1, ih hl.2⟩

theorem normalize_inline_bullets_idem (s : Str) (h : noRRN s = true) :
    normalize_inline_bullets (normalize_inline_bullets s) = normalize_inline_bullets s := by
  unfold normalize_inline_bullets
  by_cases hs : s = []
  · simp [hs]
  · rw [if_neg hs]
    have hne : bulletSub (crlf2lf s) ≠ [] := bulletSub_ne_nil (crlf2lf_ne_nil hs)
    rw [if_neg hne]
    have hCR : noCRLF (bulletSub (crlf2lf s)) = true :=
      noCRLF_bulletSub _ (noRRN_noCRLF_crlf2lf s h)
    rw [noCRLF_crlf2lf_id _ hCR]
    exact bulletSub_idem _

theorem find_paragraph_prepend {pre : List Para} {hp0 : Para} {rest : List Para} {t : Str}
    (hpre : ∀ q ∈ pre, pyStrip q.text ≠ pyStrip t)
    (hh : pyStrip hp0.text = pyStrip t) :
    find_paragraph (pre ++ hp0 :: rest) t = some pre.length := by
  induction pre with
  | nil => simp [find_paragraph, hh]
  | cons p ps ih =>
    have hne := hpre p (by simp)
    rw [List.cons_append]
    show (if pyStrip p.text = pyStrip t then some 0
      else (find_paragraph (ps ++ hp0 :: rest) t).map (· + 1)) = some (p :: ps).length
    rw [if_neg hne, ih (fun q hq => hpre q (by simp [hq]))]
    rfl

theorem find_paragraph_none {doc : List Para} {t : Str}
    (h : ∀ p ∈ doc, pyStrip p.text ≠ pyStrip t) : find_paragraph doc t = none := by
  induction doc with
  | nil => rfl
  | cons p ps ih =>
    show (if pyStrip p.text = pyStrip t then some 0
      else (find_paragraph ps t).map (· + 1)) = none
    rw [if_neg (h p (by simp)), ih (fun q hq => h q (by simp [hq]))]
    rfl

theorem take_append_cons {α : Type} (pre : List α) (x : α) (rest : List α) :
    (pre ++ x :: rest).take (pre.length + 1) = pre ++ [x] := by
  have he : pre ++ x :: rest = (pre ++ [x]) ++ rest := by simp
  have hl : pre.length + 1 = (pre ++ [x]).length := by simp
  rw [he, hl, List.take_left]

theorem drop_append_cons {α : Type} (pre : List α) (x : α) (rest : List α) :
    (pre ++ x :: rest).drop (pre.length + 1) = rest := by
  have he : pre ++ x :: rest = (pre ++ [x]) ++ rest := by simp
  have hl : pre.length + 1 = (pre ++ [x]).length := by simp
  rw [he, hl, List.drop_left]

theorem head?_mem {α : Type} {l : List α} {x : α} (h : l.head? = some x) : x ∈ l := by
  cases l with
  | nil => simp at h
  | cons a as =>
    simp only [List.head?_cons, Option.some.injEq] at h
    simp [← h]

theorem head?_append_left {α : Type} {l₁ l₂ : List α} (h : l₁ ≠ []) :
    (l₁ ++ l₂).head? = l₁.head? := by
  cases l₁ with
  | nil => exact absurd rfl h
  | cons a as => rfl

theorem mem_tail {α : Type} {l : List α} {x : α} (h : x ∈ l.tail) : x ∈ l := by
  cases l with
  | nil => simp at h
  | cons a as => simp [List.tail_cons] at h; simp [h]

theorem mem_crlf2lf {l : List Char} {x : Char} : x ∈ crlf2lf l → x ∈ l := by
  induction l using crlf2lf_induction with
  | h1 => intro h; rw [crlf2lf_nil] at h; simp at h
  | h2 c rest hm ih =>
    intro h
    rw [crlf2lf_cons, if_pos hm] at h
    rcases List.mem_cons.mp h with rfl | h2
    · exact List.mem_cons_of_mem _ (head?_mem hm.2)
    · exact List.mem_cons_of_mem _ (mem_tail (ih h2))
  | h3 c rest hm ih =>
    intro h
    rw [crlf2lf_cons, if_neg hm] at h
    rcases List.mem_cons.mp h with rfl | h2
    · simp
    · exact List.mem_cons_of_mem _ (ih h2)

theorem mem_dropWhile {α : Type} {p : α → Bool} {l : List α} {x : α}
    (h : x ∈ l.dropWhile p) : x ∈ l :=
  (List.dropWhile_suffix p).mem h

theorem mem_pyRstrip {l : Str} {x : Char} (h : x ∈ pyRstrip l) : x ∈ l := by
  unfold pyRstrip at h
  rw [List.mem_reverse] at h
  have := mem_dropWhile h
  rw [List.mem_reverse] at this
  exact this

theorem mem_stripNl {l : Str} {x : Char} (h : x ∈ stripNl l) : x ∈ l := by
  unfold stripNl at h
  rw [List.mem_reverse] at h
  have h2 := mem_dropWhile h
  rw [List.mem_reverse] at h2
  exact mem_dropWhile h2

theorem pyStrip_nil_of_all_space {l : Str} (h : ∀ x ∈ l, pySpace x = true) :
    pyStrip l = [] := by
  have hr : pyRstrip l = [] := by
    unfold pyRstrip
    rw [List.dropWhile_eq_nil_iff.mpr (fun x hx => h x (List.mem_reverse.mp hx))]
    rfl
  unfold pyStrip
  rw [hr]
  rfl

theorem pyStrip_ne_nil_of_mem {l : Str} {x : Char} (hx : x ∈ l)
    (hs : pySpace x = false) : pyStrip l ≠ [] := by
  intro h0
  unfold pyStrip pyLstrip at h0
  have hall : ∀ y ∈ pyRstrip l, pySpace y = true := List.dropWhile_eq_nil_iff.mp h0
  have hx2 : x ∈ pyRstrip l := by
    have hsplit : l.reverse.takeWhile pySpace ++ l.reverse.dropWhile pySpace = l.reverse :=
      List.takeWhile_append_dropWhile pySpace l.reverse
    have hxrev : x ∈ l.reverse := List.mem_reverse.mpr hx
    rw [← hsplit] at hxrev
    rcases List.mem_append.mp hxrev with h1 | h2
    · exact absurd (List.mem_takeWhile_imp h1) (by rw [hs]; simp)
    · unfold pyRstrip
      rw [List.mem_reverse]
      exact h2
  exact absurd (hall x hx2) (by rw [hs]; simp)

theorem pyRstrip_idem (l : Str) : pyRstrip (pyRstrip l) = pyRstrip l := by
  unfold pyRstrip
  rw [List.reverse_reverse]
  congr 1
  apply dropWhile_eq_self_of_head
  intro a ha
  exact dropWhile_head_false ha

theorem pyStrip_pyRstrip (l : Str) : pyStrip (pyRstrip l) = pyStrip l := by
  unfold pyStrip
  rw [pyRstrip_idem]

theorem mkTextPara_text (t : Str) (style : Option String) (ind : Option Rat) :
    (mkTextPara t style ind).text = t := by
  simp [mkTextPara, Para.text]

theorem splitlinesGo_cons (acc : List Char) (c : Char) (rest : List Char) :
    splitlinesGo acc (c :: rest) =
      if c = '\r' then
        acc.reverse :: splitlinesGo [] (if rest.head? = some '\n' then rest.tail else rest)
      else if isLineBreak c then acc.reverse :: splitlinesGo [] rest
      else splitlinesGo (c :: acc) rest := by
  cases rest with
  | nil =>
    by_cases hc : c = '\r'
    · subst hc
      simp [splitlinesGo, isLineBreak]
    · by_cases hb : isLineBreak c = true
      · simp [splitlinesGo, hc, hb]
      · simp [splitlinesGo, hc, hb]
  | cons d rest' =>
    by_cases hc : c = '\r'
    · subst hc
      by_cases hd : d = '\n'
      · subst hd
        simp [splitlinesGo]
      · simp [splitlinesGo, hd]
    · by_cases hb : isLineBreak c = true
      · simp [splitlinesGo, hc, hb]
      · simp [splitlinesGo, hc, hb]

theorem splitlinesGo_break (ℓ : List Char) (hl : ∀ x ∈ ℓ, isLineBreak x = false) :
    ∀ (acc rest : List Char),
      splitlinesGo acc (ℓ ++ '\n' :: rest) = (acc.reverse ++ ℓ) :: splitlinesGo [] rest := by
  induction ℓ with
  | nil =>
    intro acc rest
    rw [List.nil_append, splitlinesGo_cons,
      if_neg (show ¬('\n' : Char) = '\r' from by decide),
      if_pos (show isLineBreak '\n' = true from by decide)]
    simp
  | cons x xs ih =>
    intro acc rest
    have hx := hl x (by simp)
    have hxr : ¬x = '\r' := fun e => by rw [e] at hx; exact absurd hx (by decide)
    rw [List.cons_append, splitlinesGo_cons, if_neg hxr, if_neg (by simp [hx])]
    rw [ih (fun y hy => hl y (by simp [hy]))]
    simp

theorem splitlinesGo_last (ℓ : List Char) (hl : ∀ x ∈ ℓ, isLineBreak x = false) :
    ∀ (acc : List Char), ¬(acc.reverse ++ ℓ) = [] →
      splitlinesGo acc ℓ = [acc.reverse ++ ℓ] := by
  induction ℓ with
  | nil =>
    intro acc hne
    rw [List.append_nil] at hne
    have : ¬acc.isEmpty = true := by
      intro he
      rw [List.isEmpty_iff] at he
      rw [he] at hne
      simp at hne
    simp [splitlinesGo, this]
  | cons x xs ih =>
    intro acc _
    have hx := hl x (by simp)
    have hxr : ¬x = '\r' := fun e => by rw [e] at hx; exact absurd hx (by decide)
    rw [splitlinesGo_cons, if_neg hxr, if_neg (by simp [hx])]
    rw [ih (fun y hy => hl y (by simp [hy])) (x :: acc) (by simp)]
    simp

theorem renderLine_bullet {ℓ : Str} (h : (pyLstrip (pyRstrip ℓ)).head? = some '-') :
    renderLine ℓ = some ("• ".data ++ pyStrip (pyLstrip (pyRstrip ℓ)).tail) := by
  unfold renderLine
  have hne : ¬(pyRstrip ℓ).isEmpty = true := by
    intro he
    rw [List.isEmpty_iff] at he
    rw [he] at h
    simp [pyLstrip] at h
  rw [if_neg hne, if_pos h]

theorem renderLine_plain {ℓ : Str} (h1 : pyRstrip ℓ ≠ [])
    (h2 : (pyLstrip (pyRstrip ℓ)).head? ≠ some '-') :
    renderLine ℓ = some (pyStrip ℓ) := by
  unfold renderLine
  rw [if_neg (by rw [List.isEmpty_iff]; exact h1), if_neg h2, pyStrip_pyRstrip]

theorem crlf2lf_no_cr_id {l : List Char} (h : ∀ x ∈ l, ¬x = '\r') : crlf2lf l = l := by
  induction l using crlf2lf_induction with
  | h1 => exact crlf2lf_nil
  | h2 c rest hm ih => exact absurd hm.1 (h c (by simp))
  | h3 c rest hm ih =>
    rw [crlf2lf_cons, if_neg hm, ih (fun y hy => h y (by simp [hy]))]

theorem dropWhile_eq_self_head_false {α : Type} {p : α → Bool} {l : List α}
    (h : ∀ a, l.head? = some a → p a = false) : l.dropWhile p = l :=
  dropWhile_eq_self_of_head h

theorem stripNl_id {l : Str} (hh : ∀ a, l.head? = some a → ¬a = '\n')
    (hg : ∀ a, l.getLast? = some a → ¬a = '\n') : stripNl l = l := by
  have h1 : l.dropWhile (fun c => c == '\n') = l :=
    dropWhile_eq_self_of_head (fun a ha => by simp [hh a ha])
  have h2 : l.reverse.dropWhile (fun c => c == '\n') = l.reverse :=
    dropWhile_eq_self_of_head (fun a ha => by
      rw [List.head?_reverse] at ha
      simp [hg a ha])
  unfold stripNl
  rw [h1, h2, List.reverse_reverse]

theorem labelValuePara_text {label value : Str} (hl : label ≠ []) (hv : value ≠ [])
    (style : Option String) (ind : Option Rat) :
    (labelValuePara label value style ind).text = label ++ value := by
  have hbl : (!label.isEmpty) = true := by simp [List.isEmpty_iff, hl]
  have hbv : (!value.isEmpty) = true := by simp [List.isEmpty_iff, hv]
  unfold labelValuePara mkRunsPara Para.text
  rw [List.filter_cons, List.filter_cons, if_pos hbl, if_pos hbv]
  simp

theorem labelValuePara_label_only {label value : Str} (hl : label ≠ []) (hv : value = [])
    (style : Option String) (ind : Option Rat) :
    (labelValuePara label value style ind).text = label := by
  have hbl : (!label.isEmpty) = true := by simp [List.isEmpty_iff, hl]
  have hbv : ¬(!value.isEmpty) = true := by simp [List.isEmpty_iff, hv]
  unfold labelValuePara mkRunsPara Para.text
  rw [List.filter_cons, List.filter_cons, if_pos hbl, if_neg hbv]
  simp

theorem enum_mem_snd {α : Type} {l : List α} {pr : Nat × α} (h : pr ∈ l.enum) :
    pr.2 ∈ l := by
  obtain ⟨i, x⟩ := pr
  obtain ⟨hlt, hx⟩ := List.mem_enum h
  rw [hx]
  exact List.getElem_mem hlt

theorem map_flatten_nil {α β : Type} (l : List α) (f : α → List β)
    (h : ∀ x ∈ l, f x = []) : (l.map f).flatten = [] := by
  induction l with
  | nil => rfl
  | cons x xs ih =>
    rw [List.map_cons, List.flatten_cons, h x (by simp),
      ih (fun y hy => h y (by simp [hy]))]
    rfl

theorem getLast?_append_right {α : Type} {l₁ l₂ : List α} (h : l₂ ≠ []) :
    (l₁ ++ l₂).getLast? = l₂.getLast? := by
  rw [← List.head?_reverse, ← List.head?_reverse, List.reverse_append]
  exact head?_append_left (by simp [h])

theorem getLast?_mem {α : Type} {l : List α} {x : α} (h : l.getLast? = some x) :
    x ∈ l := by
  rw [← List.head?_reverse] at h
  exact List.mem_reverse.mp (head?_mem h)

theorem pyRstrip_append_keep {a b : List Char} (ha : a ≠ [])
    (hlast : ∀ x, a.getLast? = some x → pySpace x = false) :
    pyRstrip (a ++ b) = a ++ pyRstrip b := by
  unfold pyRstrip
  rw [List.reverse_append, List.dropWhile_append]
  split
  · rename_i hemp
    rw [dropWhile_eq_self_of_head (fun x hx => by
      rw [List.head?_reverse] at hx
      exact hlast x hx)]
    rw [List.reverse_reverse]
    have hb : (b.reverse.dropWhile pySpace).reverse = [] := by
      rw [List.isEmpty_iff] at hemp
      rw [hemp]
      rfl
    rw [hb, List.append_nil]
  · rw [List.reverse_append, List.reverse_reverse]

theorem pyStrip_colon_label (a v : Str) (ha : a ≠ [])
    (hh : a.head?.map pySpace = some false)
    (hl : a.getLast?.map pySpace = some false) :
    pyStrip (a ++ v) = a ++ pyRstrip v := by
  have hh' : ∀ x, a.head? = some x → pySpace x = false := by
    intro x hx
    rw [hx] at hh
    simp only [Option.map_some'] at hh
    injection hh
  have hl' : ∀ x, a.getLast? = some x → pySpace x = false := by
    intro x hx
    rw [hx] at hl
    simp only [Option.map_some'] at hl
    injection hl
  unfold pyStrip
  rw [pyRstrip_append_keep ha hl']
  unfold pyLstrip
  apply dropWhile_eq_self_of_head
  intro x hx
  rw [head?_append_left ha] at hx
  exact hh' x hx

theorem label_ne_heading (v : Str) :
    pyStrip ("Name: ".data ++ v) ≠ pyStrip hdObjective ∧
    pyStrip ("Role: ".data ++ v) ≠ pyStrip hdObjective ∧
    pyStrip ("Week: ".data ++ v) ≠ pyStrip hdObjective := by
  have hobj : pyStrip hdObjective = hdObjective := by decide
  refine ⟨?_, ?_, ?_⟩
  · intro he
    have e1 : "Name: ".data ++ v = "Name:".data ++ (' ' :: v) := rfl
    rw [e1, pyStrip_colon_label "Name:".data (' ' :: v) (by decide) (by decide) (by decide),
      hobj] at he
    have ht := congrArg (List.take ("Name:".data).length) he
    rw [List.take_left] at ht
    exact absurd ht (by decide)
  · intro he
    have e1 : "Role: ".data ++ v = "Role:".data ++ (' ' :: v) := rfl
    rw [e1, pyStrip_colon_label "Role:".data (' ' :: v) (by decide) (by decide) (by decide),
      hobj] at he
    have ht := congrArg (List.take ("Role:".data).length) he
    rw [List.take_left] at ht
    exact absurd ht (by decide)
  · intro he
    have e1 : "Week: ".data ++ v = "Week:".data ++ (' ' :: v) := rfl
    rw [e1, pyStrip_colon_label "Week:".data (' ' :: v) (by decide) (by decide) (by decide),
      hobj] at he
    have ht := congrArg (List.take ("Week:".data).length) he
    rw [List.take_left] at ht
    exact absurd ht (by decide)

theorem setLineGo_pres {pfx v : Str} {doc d' : List Para} {T : Str}
    (h : setLineGo pfx v doc = some d')
    (hdoc : ∀ p ∈ doc, pyStrip p.text ≠ T)
    (hnew : pyStrip (pfx ++ v) ≠ T) :
    ∀ p ∈ d', pyStrip p.text ≠ T := by
  induction doc generalizing d' with
  | nil => simp [setLineGo] at h
  | cons q qs ih =>
    unfold setLineGo at h
    split at h
    · injection h with h2
      subst h2
      intro p hp
      rcases List.mem_cons.mp hp with rfl | hmem
      · show pyStrip ({ q with runs := [⟨pfx ++ v, none⟩] } : Para).text ≠ T
        have : ({ q with runs := [⟨pfx ++ v, none⟩] } : Para).text = pfx ++ v := by
          simp [Para.text]
        rw [this]
        exact hnew
      · exact hdoc p (by simp [hmem])
    · cases hgo : setLineGo pfx v qs with
      | none => rw [hgo] at h; simp at h
      | some d'' =>
        rw [hgo] at h
        simp only [Option.map_some', Option.some.injEq] at h
        subst h
        intro p hp
        rcases List.mem_cons.mp hp with rfl | hmem
        · exact hdoc p (by simp)
        · exact ih hgo (fun r hr => hdoc r (by simp [hr])) p hmem

theorem set_line_ok_pres {doc d' : List Para} {pfx v T : Str}
    (h : set_line_value doc pfx v = .ok d')
    (hdoc : ∀ p ∈ doc, pyStrip p.text ≠ T)
    (hnew : pyStrip (pfx ++ v) ≠ T) :
    ∀ p ∈ d', pyStrip p.text ≠ T := by
  unfold set_line_value at h
  cases hgo : setLineGo pfx v doc with
  | none => rw [hgo] at h; cases h
  | some dd =>
    rw [hgo] at h
    injection h with he
    subst he
    exact setLineGo_pres hgo hdoc hnew

theorem except_bind_error {α β : Type} (e : String) (f : α → Except String β) :
    ((Except.error e : Except String α) >>= f) = Except.error e := rfl

theorem except_bind_ok {α β : Type} (a : α) (f : α → Except String β) :
    ((Except.ok a : Except String α) >>= f) = f a := rfl

theorem isOk_error (e : String) :
    (Except.error e : Except String (List Para)).isOk = false := rfl

theorem generate_missing_objective (template : List Para) (d : InputData) (w : Str)
    (h : ∀ p ∈ template, pyStrip p.text ≠ pyStrip hdObjective) :
    (generateReport template d w).isOk = false := by
  unfold generateReport
  cases h1 : set_line_value template "Name: ".data d.name with
  | error e1 => rw [except_bind_error]; rfl
  | ok doc1 =>
    rw [except_bind_ok]
    have hd1 : ∀ p ∈ doc1, pyStrip p.text ≠ pyStrip hdObjective :=
      set_line_ok_pres h1 h ((label_ne_heading d.name).1)
    cases h2 : set_line_value doc1 "Role: ".data d.role with
    | error e2 => rw [except_bind_error]; rfl
    | ok doc2 =>
      rw [except_bind_ok]
      have hd2 : ∀ p ∈ doc2, pyStrip p.text ≠ pyStrip hdObjective :=
        set_line_ok_pres h2 hd1 ((label_ne_heading d.role).2.1)
      cases h3 : set_line_value doc2 "Week: ".data (headerWeek d.week w) with
      | error e3 => rw [except_bind_error]; rfl
      | ok doc3 =>
        rw [except_bind_ok]
        have hd3 : ∀ p ∈ doc3, pyStrip p.text ≠ pyStrip hdObjective :=
          set_line_ok_pres h3 hd2 ((label_ne_heading (headerWeek d.week w)).2.2)
        have hfp : find_paragraph doc3 hdObjective = none := find_paragraph_none hd3
        unfold clear_between
        rw [hfp]
        rfl

/-- C2 (amended): for every string with no occurrence of the three-character
substring CR CR LF, `_normalize_inline_bullets` is idempotent.  (The CRLF
pre-pass `s.replace("\r\n", "\n")` is not idempotent on overlapping
occurrences such as `"\r\r\n"`; the regex substitution itself is idempotent
on all inputs, see `bulletSub_idem`.) -/
theorem normalize_inline_bullets_idem_no_crcrlf (s : Str) (h : noRRN s = true) :
    normalize_inline_bullets (normalize_inline_bullets s) = normalize_inline_bullets s :=
  normalize_inline_bullets_idem s h

/-- C2 witness: a concrete CR-CR-LF-free string on which idempotence holds. -/
theorem normalize_inline_bullets_idem_witness :
    noRRN "Done. - item one".data = true ∧
    normalize_inline_bullets (normalize_inline_bullets "Done. - item one".data) =
      normalize_inline_bullets "Done. - item one".data :=
  ⟨by decide, normalize_inline_bullets_idem_no_crcrlf "Done. - item one".data (by decide)⟩

/-- C2 counterexample: on the input CR CR LF the function is not
idempotent — one application yields CR LF, a second yields LF, because the
`replace("\r\n", "\n")` pass rewrites overlapping occurrences only once. -/
theorem normalize_inline_bullets_not_idem :
    (normalize_inline_bullets (normalize_inline_bullets ('\r' :: '\r' :: '\n' :: [])) ==
      normalize_inline_bullets ('\r' :: '\r' :: '\n' :: [])) = false := by decide

/-- C3: `clear_between` maps a document of the form
`pre ++ heading :: mid ++ stop :: post` (where `pre` has no paragraph whose
stripped text matches the start heading, `mid` has no paragraph whose
stripped text is a stop heading, and `stop` has one) to
`pre ++ heading :: stop :: post`: only the paragraphs strictly between the
heading paragraph and the first stop paragraph are deleted; the heading
and stop paragraphs are returned unaltered and everything before the
heading and after the stop paragraph is untouched. -/
theorem clear_between_frame (pre mid post : List Para) (hp0 s : Para)
    (heading : Str) (stops : List Str)
    (hpre : ∀ q ∈ pre, pyStrip q.text ≠ pyStrip heading)
    (hh : pyStrip hp0.text = pyStrip heading)
    (hmid : ∀ q ∈ mid, stops.contains (pyStrip q.text) = false)
    (hs : stops.contains (pyStrip s.text) = true) :
    clear_between (pre ++ hp0 :: (mid ++ s :: post)) heading stops =
      .ok (pre ++ hp0 :: s :: post, pre.length) := by
  unfold clear_between
  rw [find_paragraph_prepend hpre hh]
  have hdrop : (pre ++ hp0 :: (mid ++ s :: post)).drop (pre.length + 1) =
      mid ++ s :: post := drop_append_cons pre hp0 (mid ++ s :: post)
  have htake : (pre ++ hp0 :: (mid ++ s :: post)).take (pre.length + 1) =
      pre ++ [hp0] := take_append_cons pre hp0 (mid ++ s :: post)
  have hdw : (mid ++ s :: post).dropWhile
      (fun p => !(stops.contains (pyStrip p.text))) = s :: post := by
    rw [dropWhile_append_all (fun q hq => by rw [hmid q hq]; rfl)]
    rw [List.dropWhile_cons_of_neg (by rw [hs]; simp)]
  have hfin : find_paragraph ((pre ++ [hp0]) ++ s :: post) heading =
      some pre.length := by
    have he : (pre ++ [hp0]) ++ s :: post = pre ++ hp0 :: (s :: post) := by simp
    rw [he, find_paragraph_prepend hpre hh]
  simp only [hdrop, htake, hdw, hfin]
  have he2 : (pre ++ [hp0]) ++ s :: post = pre ++ hp0 :: s :: post := by simp
  rw [he2]

/-- C3 witness: a concrete region replacement deleting exactly the two
sample paragraphs between the heading and the stop heading. -/
theorem clear_between_frame_witness :
    clear_between (tpl ["A"] ++ mkTextPara "H".data none none ::
        (tpl ["junk1", "junk2"] ++ mkTextPara "S".data none none :: tpl ["tail"]))
      "H".data ["S".data] =
      .ok (tpl ["A"] ++ mkTextPara "H".data none none ::
        mkTextPara "S".data none none :: tpl ["tail"], (tpl ["A"]).length) :=
  clear_between_frame (tpl ["A"]) (tpl ["junk1", "junk2"]) (tpl ["tail"])
    (mkTextPara "H".data none none) (mkTextPara "S".data none none)
    "H".data ["S".data] (by decide) (by decide) (by decide) (by decide)

/-- C4: a marked-text value consisting only of whitespace characters
(including the empty string) expands to exactly one paragraph whose text
is the literal string N/A. -/
theorem content_parsed_blank (content : Str) (style : Option String) (ind : Option Rat)
    (h : ∀ x ∈ content, pySpace x = true) :
    contentParas content style ind = [mkTextPara "N/A".data style ind] ∧
    (contentParas content style ind).map Para.text = ["N/A".data] := by
  have hc : ∀ x ∈ stripNl (crlf2lf content), pySpace x = true :=
    fun x hx => h x (mem_crlf2lf (mem_stripNl hx))
  have hstrip : pyStrip (stripNl (crlf2lf content)) = [] := pyStrip_nil_of_all_space hc
  have h1 : contentParas content style ind = [mkTextPara "N/A".data style ind] := by
    simp only [contentParas]
    rw [hstrip]
    rfl
  exact ⟨h1, by rw [h1]; simp [mkTextPara_text]⟩

/-- C4 witness: a value of spaces and newlines renders as the single
N/A paragraph. -/
theorem content_parsed_blank_witness :
    contentParas " \n  \n ".data none none = [mkTextPara "N/A".data none none] :=
  (content_parsed_blank " \n  \n ".data none none (by decide)).1

/-- C6 counterexample: `set_line_value` locates the Name line of
`docNameSample` even though no paragraph of that document has trimmed text
exactly equal to the anchor string — the line is found by prefix match
(`startswith`), not by exact trimmed-text match as the claim states. -/
theorem set_line_value_not_exact_match :
    docNameSample.all (fun p => !(pyStrip p.text == pyStrip "Name: ".data)) = true ∧
    set_line_value docNameSample "Name: ".data "A".data =
      .ok [mkTextPara "Header".data none none, mkTextPara "Name: A".data none none] := by
  constructor
  · decide
  · rfl

/-- C6 (amended): a header line is located by trimmed-text prefix match —
the first paragraph whose stripped text starts with the label — and is
rewritten in place by direct text substitution to the label followed by the
value (its other attributes kept); no paragraph is inserted or deleted and
every other paragraph is untouched. -/
theorem set_line_value_frame (pfx value : Str) (pre post : List Para) (p : Para)
    (hpre : ∀ q ∈ pre, pfx.isPrefixOf (pyStrip q.text) = false)
    (hp : pfx.isPrefixOf (pyStrip p.text) = true) :
    set_line_value (pre ++ p :: post) pfx value =
      .ok (pre ++ { p with runs := [⟨pfx ++ value, none⟩] } :: post) := by
  unfold set_line_value
  have hgo : ∀ (l : List Para), (∀ q ∈ l, pfx.isPrefixOf (pyStrip q.text) = false) →
      setLineGo pfx value (l ++ p :: post) =
        some (l ++ { p with runs := [⟨pfx ++ value, none⟩] } :: post) := by
    intro l
    induction l with
    | nil =>
      intro _
      rw [List.nil_append, List.nil_append]
      show (if pfx.isPrefixOf (pyStrip p.text) = true
          then some (({ p with runs := [⟨pfx ++ value, none⟩] } : Para) :: post)
          else (setLineGo pfx value post).map (p :: ·)) = _
      rw [if_pos hp]
    | cons q qs ih =>
      intro hl
      rw [List.cons_append, List.cons_append]
      show (if pfx.isPrefixOf (pyStrip q.text) = true
          then some (({ q with runs := [⟨pfx ++ value, none⟩] } : Para) :: (qs ++ p :: post))
          else (setLineGo pfx value (qs ++ p :: post)).map (q :: ·)) = _
      rw [if_neg (by simp [hl q (by simp)]), ih (fun r hr => hl r (by simp [hr]))]
      rfl
  rw [hgo pre hpre]

/-- C6 witness: the amended statement at a concrete document. -/
theorem set_line_value_frame_witness :
    set_line_value ([mkTextPara "Header".data none none] ++
        mkTextPara "Name: John".data none none :: []) "Name: ".data "A".data =
      .ok ([mkTextPara "Header".data none none] ++
        { mkTextPara "Name: John".data none none with
          runs := [⟨"Name: ".data ++ "A".data, none⟩] } :: []) :=
  set_line_value_frame "Name: ".data "A".data [mkTextPara "Header".data none none]
    [] (mkTextPara "Name: John".data none none) (by decide) (by decide)

/-- C5: a marked-text value made of two bullet lines followed by one
non-empty plain line (joined by single newlines, each line free of
line-break characters) expands to exactly three paragraphs in source
order: the two bullet paragraphs carry a bullet glyph followed by the
line's remainder with the dash marker and surrounding whitespace
stripped, and the plain paragraph carries the line with leading and
trailing whitespace stripped. -/
theorem content_parsed_two_bullets_one_plain (a b c0 : Str)
    (style : Option String) (ind : Option Rat)
    (hla : ∀ x ∈ a, isLineBreak x = false)
    (hlb : ∀ x ∈ b, isLineBreak x = false)
    (hlc : ∀ x ∈ c0, isLineBreak x = false)
    (ha : (pyLstrip (pyRstrip a)).head? = some '-')
    (hb : (pyLstrip (pyRstrip b)).head? = some '-')
    (hc1 : pyRstrip c0 ≠ [])
    (hc2 : (pyLstrip (pyRstrip c0)).head? ≠ some '-') :
    contentParas (a ++ '\n' :: (b ++ '\n' :: c0)) style ind =
      [mkTextPara ("• ".data ++ pyStrip (pyLstrip (pyRstrip a)).tail) style ind,
       mkTextPara ("• ".data ++ pyStrip (pyLstrip (pyRstrip b)).tail) style ind,
       mkTextPara (pyStrip c0) style ind] := by
  have hane : a ≠ [] := by
    intro e
    rw [e] at ha
    simp [pyRstrip, pyLstrip] at ha
  have hc0ne : c0 ≠ [] := by
    intro e
    rw [e] at hc1
    exact hc1 rfl
  have hmem : ∀ x ∈ a ++ '\n' :: (b ++ '\n' :: c0), ¬x = '\r' := by
    intro x hx e
    subst e
    rcases List.mem_append.mp hx with h1 | h2
    · exact absurd (hla _ h1) (by decide)
    · rcases List.mem_cons.mp h2 with h3 | h4
      · exact absurd h3 (by decide)
      · rcases List.mem_append.mp h4 with h5 | h6
        · exact absurd (hlb _ h5) (by decide)
        · rcases List.mem_cons.mp h6 with h7 | h8
          · exact absurd h7 (by decide)
          · exact absurd (hlc _ h8) (by decide)
  have hcr : crlf2lf (a ++ '\n' :: (b ++ '\n' :: c0)) = a ++ '\n' :: (b ++ '\n' :: c0) :=
    crlf2lf_no_cr_id hmem
  have hhead : ∀ x, (a ++ '\n' :: (b ++ '\n' :: c0)).head? = some x → ¬x = '\n' := by
    intro x hx e
    subst e
    rw [head?_append_left hane] at hx
    exact absurd (hla _ (head?_mem hx)) (by decide)
  have hlast : ∀ x, (a ++ '\n' :: (b ++ '\n' :: c0)).getLast? = some x → ¬x = '\n' := by
    intro x hx e
    subst e
    rw [getLast?_append_right (by simp)] at hx
    rw [show ('\n' :: (b ++ '\n' :: c0)) = ['\n'] ++ (b ++ '\n' :: c0) from rfl] at hx
    rw [getLast?_append_right (by simp)] at hx
    rw [getLast?_append_right (by simp)] at hx
    rw [show ('\n' :: c0) = ['\n'] ++ c0 from rfl] at hx
    rw [getLast?_append_right hc0ne] at hx
    exact absurd (hlc _ (getLast?_mem hx)) (by decide)
  have hstripid : stripNl (a ++ '\n' :: (b ++ '\n' :: c0)) = a ++ '\n' :: (b ++ '\n' :: c0) :=
    stripNl_id hhead hlast
  have hdash_mem : ('-' : Char) ∈ a := by
    have h1 := head?_mem ha
    unfold pyLstrip at h1
    exact mem_pyRstrip (mem_dropWhile h1)
  have hstrip_ne : pyStrip (a ++ '\n' :: (b ++ '\n' :: c0)) ≠ [] :=
    pyStrip_ne_nil_of_mem (List.mem_append.mpr (Or.inl hdash_mem)) (by decide)
  have hsplit : splitlines (a ++ '\n' :: (b ++ '\n' :: c0)) = [a, b, c0] := by
    unfold splitlines
    rw [splitlinesGo_break a hla, splitlinesGo_break b hlb]
    rw [splitlinesGo_last c0 hlc [] (by simpa using hc0ne)]
    simp
  simp only [contentParas]
  rw [hcr, hstripid]
  rw [if_neg (by rw [List.isEmpty_iff]; exact hstrip_ne)]
  rw [hsplit]
  simp only [List.filterMap_cons, renderLine_bullet ha, renderLine_bullet hb,
    renderLine_plain hc1 hc2, Option.map_some', List.filterMap_nil]

/-- C5 witness: the schema at concrete lines. -/
theorem content_parsed_two_bullets_one_plain_witness :
    contentParas (" - x ".data ++ '\n' :: ("- y".data ++ '\n' :: " z ".data)) none none =
      [mkTextPara ("• ".data ++ pyStrip (pyLstrip (pyRstrip " - x ".data)).tail) none none,
       mkTextPara ("• ".data ++ pyStrip (pyLstrip (pyRstrip "- y".data)).tail) none none,
       mkTextPara (pyStrip " z ".data) none none] :=
  content_parsed_two_bullets_one_plain " - x ".data "- y".data " z ".data none none
    (by decide) (by decide) (by decide) (by decide) (by decide) (by decide) (by decide)

/-- C7 counterexample: for the value a space, a newline and the letter x —
whose fully trimmed form is the single line x with no embedded newline and
no leading dash — the claim requires the label and value on one physical
line, but `insert_label_value_block` emits two paragraphs (the one-liner
test looks at the value with only edge newlines stripped, which still
contains a newline). -/
theorem label_value_block_not_trimmed_oneliner :
    pyStrip (' ' :: '\n' :: 'x' :: []) = ['x'] ∧
    (labelValueBlockParas "Impact:".data (' ' :: '\n' :: 'x' :: []) none none).length = 2 := by
  constructor
  · decide
  · rfl

/-- C7 (amended): writing `v` for the value with newlines stripped at
both ends: a blank `v` renders as a single line holding the label and the
literal text N/A; a `v` with no embedded newline whose left-stripped form
does not start with a dash renders as a single paragraph holding the bold
label and a space followed by `v`; otherwise the bold label is emitted
alone and `v` is expanded by content-to-paragraphs expansion into the
following paragraphs, each carrying the given style and left indent. -/
theorem label_value_block_cases (label value : Str) (style : Option String)
    (ind : Option Rat) :
    ((pyStrip (stripNl value)).isEmpty = true →
      labelValueBlockParas label value style ind =
        [labelValuePara label " N/A".data style ind]) ∧
    (¬(pyStrip (stripNl value)).isEmpty = true →
      (stripNl value).contains '\n' = false →
      (pyLstrip (stripNl value)).head? ≠ some '-' →
      labelValueBlockParas label value style ind =
        [labelValuePara label (' ' :: stripNl value) style ind]) ∧
    (¬(pyStrip (stripNl value)).isEmpty = true →
      ((stripNl value).contains '\n' = true ∨ (pyLstrip (stripNl value)).head? = some '-') →
      labelValueBlockParas label value style ind =
        mkRunsPara [(label, true)] style ind :: contentParas (stripNl value) style ind) := by
  refine ⟨?_, ?_, ?_⟩
  · intro h
    simp only [labelValueBlockParas]
    rw [if_pos h]
  · intro h1 h2 h3
    simp only [labelValueBlockParas]
    rw [if_neg h1, if_pos ⟨h2, h3⟩]
    have hvne : stripNl value ≠ [] := by
      intro e
      rw [e] at h1
      exact h1 rfl
    rw [if_neg (by rw [List.isEmpty_iff]; exact hvne)]
  · intro h1 h2
    simp only [labelValueBlockParas]
    rw [if_neg h1, if_neg ?_]
    rintro ⟨hc, hd⟩
    rcases h2 with h2a | h2b
    · rw [h2a] at hc; cases hc
    · exact hd h2b

/-- C7 witness: a simple one-line value joins the label on one line. -/
theorem label_value_block_cases_witness :
    labelValueBlockParas "Impact:".data "quick win".data none none =
      [labelValuePara "Impact:".data (' ' :: stripNl "quick win".data) none none] :=
  (label_value_block_cases "Impact:".data "quick win".data none none).2.1
    (by decide) (by decide) (by decide)

/-- C8: a friction entry whose friction, action_mitigation and
ask_attention_needed fields are all empty produces no paragraphs at all;
a rendered entry's first paragraph is the "Friction N: " line (N the
entry's 1-based index as passed by the enumeration in `main`), whose value
is the stripped friction text, defaulting to N/A when the friction field
strips to nothing. -/
theorem friction_entry_spec (it : FrictionItem) (idx total : Nat) :
    (frictionFields it = ([], [], []) → frictionItemParas idx total it = []) ∧
    (frictionFields it ≠ ([], [], []) →
      (frictionItemParas idx total it).head?.map Para.text =
        some (frictionLabel idx ++
          (if (pyStrip (frictionFields it).1).isEmpty = true then "N/A".data
           else pyStrip (frictionFields it).1))) := by
  constructor
  · intro h
    have h1 : (frictionFields it).1 = [] := by rw [h]
    have h2 : (frictionFields it).2.1 = [] := by rw [h]
    have h3 : (frictionFields it).2.2 = [] := by rw [h]
    simp only [frictionItemParas]
    rw [h1, h2, h3]
    rfl
  · intro h
    have hcond : (!(frictionFields it).1.isEmpty || !(frictionFields it).2.1.isEmpty ||
        !(frictionFields it).2.2.isEmpty) = true := by
      by_contra hc
      apply h
      simp only [Bool.or_eq_true, not_or, Bool.not_eq_true] at hc
      obtain ⟨⟨hf, ha⟩, hk⟩ := hc
      have hf' : (frictionFields it).1.isEmpty = true := by
        revert hf; cases (frictionFields it).1.isEmpty <;> simp
      have ha' : (frictionFields it).2.1.isEmpty = true := by
        revert ha; cases (frictionFields it).2.1.isEmpty <;> simp
      have hk' : (frictionFields it).2.2.isEmpty = true := by
        revert hk; cases (frictionFields it).2.2.isEmpty <;> simp
      rw [List.isEmpty_iff] at hf' ha' hk'
      have hsplit : frictionFields it =
          ((frictionFields it).1, (frictionFields it).2.1, (frictionFields it).2.2) := rfl
      rw [hsplit, hf', ha', hk']
    have hlabne : frictionLabel idx ≠ [] := by
      unfold frictionLabel
      simp
    have hvalne : (if (pyStrip (frictionFields it).1).isEmpty = true then "N/A".data
        else pyStrip (frictionFields it).1) ≠ [] := by
      split
      · decide
      · rename_i hemp
        intro e
        apply hemp
        rw [e]
        rfl
    simp only [frictionItemParas]
    rw [if_pos hcond]
    simp only [List.head?_cons, Option.map_some']
    rw [labelValuePara_text hlabne hvalne]

/-- C8 witness: an all-blank entry is skipped; a rendered entry carries
the indexed label with the stripped friction text. -/
theorem friction_entry_spec_witness :
    frictionItemParas 2 3 (FrictionItem.fdict [] [] []) = [] ∧
    (frictionItemParas 1 2 (FrictionItem.fdict " f1 ".data "act".data [])).head?.map
        Para.text =
      some (frictionLabel 1 ++
        (if (pyStrip (frictionFields (FrictionItem.fdict " f1 ".data "act".data [])).1).isEmpty = true
         then "N/A".data
         else pyStrip (frictionFields (FrictionItem.fdict " f1 ".data "act".data [])).1)) :=
  ⟨(friction_entry_spec (FrictionItem.fdict [] [] []) 2 3).1 (by decide),
   (friction_entry_spec (FrictionItem.fdict " f1 ".data "act".data []) 1 2).2 (by decide)⟩

/-- C9: a missing or empty sop_process_solidification input normalizes to
exactly the single default entry with item "None" and impact "N/A"; the
normalizer never returns an empty list; and rendering the default entry
produces two label lines whose texts are "Item: None" and "Impact: N/A". -/
theorem sop_default_spec :
    normalize_sop_items none = [("None".data, "N/A".data)] ∧
    (∀ raw : Option SopData, 0 < (normalize_sop_items raw).length) ∧
    (sopItemParas "None".data "N/A".data).map Para.text =
      ["Item: None".data, "Impact: N/A".data] := by
  refine ⟨rfl, ?_, by decide⟩
  intro raw
  cases raw with
  | none => decide
  | some r =>
    unfold normalize_sop_items
    dsimp only
    by_cases hi : r.items.isEmpty = true
    · rw [if_neg (by rw [hi]; simp)]
      simp
    · have hi' : r.items.isEmpty = false := by
        revert hi
        cases r.items.isEmpty <;> simp
      rw [if_pos (by rw [hi']; rfl)]
      split
      · simp
      · rename_i ho
        exact List.length_pos.mpr (fun e => ho (by rw [e]; rfl))

/-- C10: an Execution & Output entry whose summary and effective content
(after the legacy description/bullets reconstruction) are both empty is
skipped entirely, so a record all of whose entries are such leaves the
region holding only the trailing spacer paragraph. -/
theorem exec_all_blank_spec (items : List ExecItem)
    (h : ∀ e ∈ items, execFields e = ([], [])) :
    execSectionParas items = [mkTextPara [] (some "List Paragraph") none] := by
  unfold execSectionParas
  have hnil : (items.enum.map (fun pr =>
      if execRendered pr.2 then
        execItemParas pr.2 ++
          (if pr.1 < items.length - 1 then [mkTextPara [] (some "List Paragraph") none]
           else [])
      else [])).flatten = [] := by
    apply map_flatten_nil
    intro pr hpr
    have hf := h pr.2 (enum_mem_snd hpr)
    have hrend : execRendered pr.2 = false := by
      unfold execRendered
      rw [hf]
      rfl
    rw [if_neg (by rw [hrend]; simp)]
  rw [hnil]
  rfl

/-- C10 witness: the normalizer's placeholder for an empty
execution_output list is the all-empty entry, and a record holding only
the corresponding entry renders the region as just the spacer. -/
theorem exec_all_blank_spec_witness :
    normalize_execution_output [] = [(([] : Str), ([] : Str))] ∧
    execSectionParas [ExecItem.edict ⟨[], [], [], ExecBullets.blist [], none⟩] =
      [mkTextPara [] (some "List Paragraph") none] :=
  ⟨rfl, exec_all_blank_spec [ExecItem.edict ⟨[], [], [], ExecBullets.blist [], none⟩]
    (by decide)⟩

/-- C1 (amended): a template with no paragraph whose trimmed text equals
"Weekly Objective (One Sentence)" always aborts generation with no output;
representative templates missing only the "Execution & Output",
"AI Acceleration" or "Friction, Blockers & Ask" headings also abort; but a
template missing only the "Next Week's Focus (Preview Only)" heading does
NOT abort — that section is skipped and an output document is produced
(and likewise for the SOP heading, see the counterexample). -/
theorem anchor_missing_behavior :
    (∀ (template : List Para) (d : InputData) (w : Str),
      (∀ p ∈ template, pyStrip p.text ≠ pyStrip hdObjective) →
      (generateReport template d w).isOk = false) ∧
    (generateReport tmplNoExec inputEmpty "W".data).isOk = false ∧
    (generateReport tmplNoAI inputEmpty "W".data).isOk = false ∧
    (generateReport tmplNoFriction inputEmpty "W".data).isOk = false ∧
    (generateReport tmplNoNW inputEmpty "W".data).isOk = true :=
  ⟨generate_missing_objective, by decide, by decide, by decide, by decide⟩

/-- C1 witness: the universal abort statement applied to a concrete
template missing the objective heading. -/
theorem anchor_missing_behavior_witness :
    (generateReport tmplNoObj inputEmpty "W".data).isOk = false :=
  anchor_missing_behavior.1 tmplNoObj inputEmpty "W".data (by decide)

/-- C1 counterexample: a template containing every anchor except the
"SOP & Process Solidification" heading does not abort — generation
succeeds and an output document is produced, contradicting the claim that
a missing required heading always aborts with no output. -/
theorem anchor_missing_sop_no_abort :
    tmplNoSop.all (fun p => !(pyStrip p.text == pyStrip hdSop)) = true ∧
    (generateReport tmplNoSop inputEmpty "W".data).isOk = true := by
  constructor
  · decide
  · decide
